import Mathlib

/-!
# A shallow embedding of the `memlog` in-memory segmented log

This file models the Go package `github.com/embano1/memlog` (files
`memlog.go`, `segment.go`, `sharded/shard.go`) and proves properties of the
model.

Modelling conventions:
* Go `Offset` (a signed `int`) is `Int`.
* Byte slices are `List Nat` (each entry one byte); `time.Time` is a `Nat`
  tick count whose value `0` is Go's zero time (`IsZero`).
* A `context.Context` is a `Bool` that is `true` when the context is already
  cancelled (or its deadline exceeded); the two Go cancellation sentinels are
  collapsed into one `canceled` error, which is faithful to the code because
  both are handled identically on every path.
* Go errors are the inductive `Err`; a function returning `(T, error)`
  becomes `Except Err T`.
* `panic` in `Log.write` is the dedicated result `WriteRes.panicked`; the
  unbounded retry loop in `Log.write` is given explicit fuel, with
  `WriteRes.diverge` marking fuel exhaustion (proved unreachable).
* Record/segment/log structures are parametrised by the type `δ` of the
  `Data` field so that the byte-slice model (`δ = List Nat`, value semantics)
  and the pointer-store model used for the aliasing claims (`δ = Option Nat`,
  an index into a store of byte lists, `none` being Go's nil slice) share the
  data-independent code (`segment.go`, `getSegment`, `extend`, `offsetRange`).
-/

deriving instance DecidableEq for Except

/-- Errors of the memlog package (`memlog.go` lines 13-23, `segment.go`
lines 9-12), plus the collapsed context-cancellation error and the
`errors.New("no data provided")` literal of `Log.write`. -/
inductive Err where
  | canceled
  | recordTooLarge
  | futureOffset
  | outOfRange
  | noData
  | errSealed
  | errFull
  deriving Repr, DecidableEq

/-- The `Header` (`memlog.go` lines 29-35): record offset and created timestamp. -/
structure Header where
  offset : Int
  created : Nat
  deriving Repr, DecidableEq

/-- The `Record` (`memlog.go` lines 38-41), generic in the data representation. -/
structure RecordG (δ : Type) where
  metadata : Header
  data : δ
  deriving Repr, DecidableEq

/-- Byte-slice records: `Data []byte` with value semantics. -/
abbrev Record := RecordG (List Nat)

instance : Inhabited Record := ⟨⟨⟨0, 0⟩, []⟩⟩

/-- The Go zero value `Record{}`: zero header, nil data. -/
def Record.empty : Record := ⟨⟨0, 0⟩, []⟩

/-- The `Record.deepCopy` (`memlog.go` lines 43-56): an all-zero-header record is
returned as the zero record; otherwise the header is rebuilt and the data
copied (`append([]byte(nil), r.Data...)`), which under value semantics is the
same list. -/
def Record.deepCopy (r : Record) : Record :=
  if r.metadata.offset = 0 ∧ r.metadata.created = 0 then Record.empty
  else ⟨⟨r.metadata.offset, r.metadata.created⟩, r.data⟩

/-- The `segment` (`segment.go` lines 16-20). `cap` records the capacity fixed by
`make([]Record, 0, size)`; `segment.write` never lets `len(data)` exceed it. -/
structure SegmentG (δ : Type) where
  start : Int
  sealed : Bool
  cap : Nat
  data : List (RecordG δ)
  deriving Repr, DecidableEq

abbrev Segment := SegmentG (List Nat)

/-- The `newSegment` (`segment.go` lines 22-37). -/
def newSegmentG (δ : Type) (startOffset : Int) (size : Int) : Option (SegmentG δ) :=
  if startOffset < 0 then none
  else if size ≤ 0 then none
  else some ⟨startOffset, false, size.toNat, []⟩

/-- The `segment.write` (`segment.go` lines 39-54). -/
def SegmentG.write (s : SegmentG δ) (cancelled : Bool) (r : RecordG δ) :
    Except Err (SegmentG δ) :=
  if cancelled then .error .canceled
  else if s.sealed then .error .errSealed
  else if s.data.length = s.cap then .error .errFull
  else .ok { s with data := s.data ++ [r] }

/-- The `segment.read` (`segment.go` lines 56-68). The bounds check makes the
`getD` default irrelevant. -/
def SegmentG.read [Inhabited (RecordG δ)] (s : SegmentG δ) (cancelled : Bool)
    (offset : Int) : Except Err (RecordG δ) :=
  if cancelled then .error .canceled
  else
    let records : Int := s.data.length
    let index : Int := offset - s.start
    if index > records - 1 ∨ index < 0 then .error .outOfRange
    else .ok (s.data.getD index.toNat default)

/-- The `segment.seal` (`segment.go` lines 71-73). -/
def SegmentG.seal (s : SegmentG δ) : SegmentG δ := { s with sealed := true }

/-- The `segment.currentOffset` (`segment.go` lines 78-85). -/
def SegmentG.currentOffset (s : SegmentG δ) : Int :=
  if s.data.length = 0 then -1 else s.start + s.data.length - 1

/-- The `Log` (`memlog.go` lines 79-87) with its `config` (lines 58-62) inlined.
The injected clock is modelled by passing the current time to `write`. -/
structure LogG (δ : Type) where
  startOffset : Int
  segmentSize : Int
  maxRecordSize : Nat
  history : Option (SegmentG δ)
  active : SegmentG δ
  offset : Int
  deriving Repr, DecidableEq

abbrev Log := LogG (List Nat)

instance : Inhabited Log := ⟨⟨0, 1, 0, none, ⟨0, false, 1, []⟩, 0⟩⟩

/-- The `New` (`memlog.go` lines 91-116) after option application: creates the
active segment at the configured start offset and initialises the offset
counter. -/
def LogG.new (δ : Type) (startOffset segmentSize : Int) (maxRecordSize : Nat) :
    Option (LogG δ) :=
  match newSegmentG δ startOffset segmentSize with
  | none => none
  | some s => some ⟨startOffset, segmentSize, maxRecordSize, none, s, startOffset⟩

/-- The `Log.extend` (`memlog.go` lines 324-335): seal the active segment, move it
to history (dropping the previous history) and start a fresh active segment at
the next offset. `none` models the error path (which `write` turns into a
panic). -/
def LogG.extend (l : LogG δ) : Option (LogG δ) :=
  match newSegmentG δ l.offset l.segmentSize with
  | none => none
  | some seg => some { l with history := some l.active.seal, active := seg }

/-- The `Log.getSegment` (`memlog.go` lines 298-318). -/
def LogG.getSegment (l : LogG δ) (offset : Int) : Except Err (SegmentG δ) :=
  if offset ≥ l.active.start then
    if offset ≤ l.active.currentOffset then .ok l.active
    else .error .futureOffset
  else
    match l.history with
    | some history =>
      if history.start ≤ offset ∧ offset ≤ history.start + l.segmentSize - 1 then
        .ok history
      else .error .outOfRange
    | none => .error .outOfRange

/-- The `Log.offsetRange` (`memlog.go` lines 280-292), also the body of `Range`. -/
def LogG.offsetRange (l : LogG δ) : Int × Int :=
  match l.history with
  | none =>
    if l.active.currentOffset = -1 then (-1, -1)
    else (l.startOffset, l.active.currentOffset)
  | some history => (history.start, l.active.currentOffset)

/-- Result of `Log.write` (`memlog.go` lines 118-177): a successful write
returns the updated log and the assigned offset; a failed write returns the
(unchanged) log, the invalid offset `-1` and the error; `panicked` is the
`panic` calls; `diverge` is retry-loop fuel exhaustion (unreachable). -/
inductive WriteRes (δ : Type) where
  | ok (l : LogG δ) (offset : Int)
  | err (l : LogG δ) (offset : Int) (e : Err)
  | panicked
  | diverge
  deriving Repr, DecidableEq

/-- The `for err != nil` retry loop of `Log.write` (`memlog.go` lines
151-173), entered with the error of the first `l.active.write` attempt
(`none` when that attempt succeeded; the log argument already carries the
updated active segment in that case). On `errFull` it extends and retries; a
failing extend, `errSealed` and unknown errors panic. -/
def LogG.writeLoop (l : LogG δ) (cancelled : Bool) (r : RecordG δ) :
    Option Err → Nat → WriteRes δ
  | none, _ => .ok { l with offset := l.offset + 1 } r.metadata.offset
  | some _, 0 => .diverge
  | some e, fuel + 1 =>
    if e = .canceled then .err l (-1) .canceled
    else if e = .errFull then
      match l.extend with
      | none => .panicked
      | some l1 =>
        match l1.active.write cancelled r with
        | .ok a => LogG.writeLoop { l1 with active := a } cancelled r none fuel
        | .error e1 => LogG.writeLoop l1 cancelled r (some e1) fuel
    else .panicked

/-- The `Log.write` (`memlog.go` lines 129-177). `now` is `l.clock.Now().UTC()`.
Fuel `2` suffices for the retry loop on every input (proved below). -/
def Log.write (l : Log) (cancelled : Bool) (now : Nat) (data : List Nat) :
    WriteRes (List Nat) :=
  if cancelled then .err l (-1) .canceled
  else if data.length > l.maxRecordSize then .err l (-1) .recordTooLarge
  else if data.length = 0 then .err l (-1) .noData
  else
    let r : Record := ⟨⟨l.offset, now⟩, data⟩
    match l.active.write cancelled r with
    | .ok a => LogG.writeLoop { l with active := a } cancelled r none 2
    | .error e => LogG.writeLoop l cancelled r (some e) 2

/-- The `Log.read` (`memlog.go` lines 232-256). -/
def Log.read (l : Log) (cancelled : Bool) (offset : Int) : Except Err Record :=
  if cancelled then .error .canceled
  else if offset ≥ l.offset then .error .futureOffset
  else if offset < l.startOffset then .error .outOfRange
  else
    match l.getSegment offset with
    | .error e => .error e
    | .ok s =>
      match s.read cancelled offset with
      | .error e => .error e
      | .ok r => .ok (Record.deepCopy r)

/-- The loop body of `Log.ReadBatch` (`memlog.go` lines 202-230). `cancel i`
is whether the context has been cancelled by the time of the `i`-th read
(cancellation can trip while the loop runs). Returns the records written into
the batch (always a prefix, in order), the returned count and the returned
error. Note the source's `return 0, err` for `ErrOutOfRange`, and that an
unrecognised error would fall through and store the zero record. -/
def Log.readBatchAux (l : Log) (cancel : Nat → Bool) :
    Int → Nat → Nat → List Record × Nat × Option Err
  | _, _, 0 => ([], 0, none)
  | offset, i, n + 1 =>
    match l.read (cancel i) offset with
    | .error .outOfRange => ([], 0, some .outOfRange)
    | .error .canceled => ([], 0, some .canceled)
    | .error .futureOffset => ([], 0, some .futureOffset)
    | .error _ =>
      let rest := l.readBatchAux cancel (offset + 1) (i + 1) n
      (Record.empty :: rest.1,
        if rest.2.2 = some .outOfRange then 0 else rest.2.1 + 1, rest.2.2)
    | .ok r =>
      let rest := l.readBatchAux cancel (offset + 1) (i + 1) n
      (r :: rest.1,
        if rest.2.2 = some .outOfRange then 0 else rest.2.1 + 1, rest.2.2)

/-- The `Log.ReadBatch` (`memlog.go` lines 202-230) for a batch of length
`batchLen`. -/
def Log.readBatch (l : Log) (cancel : Nat → Bool) (offset : Int)
    (batchLen : Nat) : List Record × Nat × Option Err :=
  l.readBatchAux cancel offset 0 batchLen

/-- Sequential `Write` calls (all with an untripped context): threads the log
through `Log.write` and collects the returned offsets (`-1` on failure, as
returned by the code). A panicking write aborts the run. -/
def Log.writeMany (l : Log) : List (Nat × List Nat) → Log × List Int
  | [] => (l, [])
  | (now, d) :: rest =>
    match l.write false now d with
    | .ok l' o =>
      let r := Log.writeMany l' rest
      (r.1, o :: r.2)
    | .err l' o _ =>
      let r := Log.writeMany l' rest
      (r.1, o :: r.2)
    | _ => (l, [])

/-- Number of records currently stored in the log (active plus history). -/
def Log.recordCount (l : Log) : Nat :=
  l.active.data.length +
    (match l.history with
     | none => 0
     | some h => h.data.length)

/-- Oldest offset still backed by a stored segment: `history.start` when a
history segment exists, otherwise the configured start offset. -/
def Log.earliestStored (l : Log) : Int :=
  match l.history with
  | none => l.startOffset
  | some h => h.start

def dsN (n : Nat) : List (Nat × List Nat) := (List.range n).map (fun i => (1, [i % 256]))

def mkTestLog (s0 sz : Int) (n : Nat) : Log :=
  match LogG.new (List Nat) s0 sz 1048576 with
  | some l => (Log.writeMany l (dsN n)).1
  | none => default

-- scratch sanity checks against the Go tests

/-- Structural invariant of a `Log`, established by `New` and preserved by
`write` (reads do not mutate): valid configuration, unsealed active segment
within capacity, offset counter one past the last stored record, and, when a
history segment exists, a full sealed segment directly below the active one. -/
def LogG.Wf (l : LogG δ) : Prop :=
  0 ≤ l.startOffset ∧
  0 < l.segmentSize ∧
  l.active.cap = l.segmentSize.toNat ∧
  l.active.sealed = false ∧
  l.active.data.length ≤ l.active.cap ∧
  l.offset = l.active.start + l.active.data.length ∧
  l.startOffset ≤ l.active.start ∧
  (match l.history with
   | none => l.active.start = l.startOffset
   | some h =>
     h.sealed = true ∧ h.data.length = l.segmentSize.toNat ∧
       h.start + l.segmentSize = l.active.start ∧ l.startOffset ≤ h.start)

instance [DecidableEq δ] (l : LogG δ) : Decidable (LogG.Wf l) := by
  unfold LogG.Wf
  cases hh : l.history <;> simp only [hh] <;> infer_instance

/-- Derived description of the state after a successful `write` of record `r`
with valid data: when the active segment is full, rotate and store `r` in the
fresh segment; otherwise append to the active segment. (This is a proof
artefact characterising `Log.write`, proved sound in `Log.write_char`.) -/
def LogG.stepSpec (l : LogG δ) (r : RecordG δ) : LogG δ :=
  if l.active.data.length = l.active.cap then
    { l with history := some l.active.seal,
             active := ⟨l.offset, false, l.segmentSize.toNat, [r]⟩,
             offset := l.offset + 1 }
  else
    { l with active := { l.active with data := l.active.data ++ [r] },
             offset := l.offset + 1 }

/-- Logs reachable from `New` through any sequence of `Write` calls
(successful or failing; `Read`, `ReadBatch` and `Range` do not mutate the
log, and a panicking write terminates the process). -/
inductive Log.Reachable : Log → Prop where
  | init (s0 sz : Int) (mr : Nat) (l : Log) :
      LogG.new (List Nat) s0 sz mr = some l → Log.Reachable l
  | wrote (l : Log) (c : Bool) (now : Nat) (d : List Nat) (l' : Log) (o : Int) :
      Log.Reachable l → l.write c now d = .ok l' o → Log.Reachable l'
  | failed (l : Log) (c : Bool) (now : Nat) (d : List Nat) (l' : Log) (o : Int)
      (e : Err) :
      Log.Reachable l → l.write c now d = .err l' o e → Log.Reachable l'

/-- Ghost trace of the records written so far: starting at index `j`, the
entry for a write with time `now` and payload `d` is the record the code
builds in `Log.write`, namely `⟨⟨s0 + index, now⟩, d⟩`. -/
def mkRecs (s0 : Int) : Nat → List (Nat × List Nat) → List Record
  | _, [] => []
  | j, p :: rest => ⟨⟨s0 + j, p.1⟩, p.2⟩ :: mkRecs s0 (j + 1) rest

/-- Simulation relation: `l` is the state of a fresh log (start offset `s0`,
segment size `sz`, max record size `mr`) after the records `recs` were
written in order and `r` segment rotations occurred. Writing `s := sz.toNat`
and `b := r * s`: the active segment holds the records from trace index `b`
on, and once a rotation has happened the history segment holds the `s`
records at indices `(r-1)*s ≤ i < b`. -/
def Log.Sim (s0 sz : Int) (mr : Nat) (recs : List Record) (r : Nat)
    (l : Log) : Prop :=
  0 ≤ s0 ∧ 0 < sz ∧
  l.startOffset = s0 ∧ l.segmentSize = sz ∧ l.maxRecordSize = mr ∧
  l.offset = s0 + recs.length ∧
  r * sz.toNat ≤ recs.length ∧ recs.length ≤ r * sz.toNat + sz.toNat ∧
  (0 < r → r * sz.toNat < recs.length) ∧
  l.active.cap = sz.toNat ∧ l.active.sealed = false ∧
  l.active.start = s0 + (r * sz.toNat : Nat) ∧
  l.active.data = recs.drop (r * sz.toNat) ∧
  (match l.history with
   | none => r = 0
   | some h => 0 < r ∧
       h = ⟨s0 + ((r - 1) * sz.toNat : Nat), true, sz.toNat,
            (recs.take (r * sz.toNat)).drop ((r - 1) * sz.toNat)⟩)

instance (s0 sz : Int) (mr : Nat) (recs : List Record) (r : Nat) (l : Log) :
    Decidable (Log.Sim s0 sz mr recs r l) := by
  unfold Log.Sim
  cases hh : l.history <;> simp only [hh] <;> infer_instance

def log0 : Log := ⟨0, 10, 1048576, none, ⟨0, false, 10, []⟩, 0⟩

def log20 : Log := mkTestLog 0 10 20

def recs20 : List Record := mkRecs 0 0 (dsN 20)

/-- FNV-1a 32-bit hash as used by `defaultSharder.hash`
(`sharded/shard.go` lines 42-53). Modelled from the Go standard library
`hash/fnv` (`fnv.New32a`): offset basis 2166136261, prime 16777619; per key
byte: xor the byte in, then multiply, with 32-bit wrap-around. -/
def fnv32a (key : List Nat) : Nat :=
  key.foldl (fun h b => ((h ^^^ (b % 256)) * 16777619) % 4294967296)
    2166136261

/-- The Go conversion `int32(x)`: reinterpret the low 32 bits as a signed
32-bit value. -/
def toInt32 (x : Nat) : Int :=
  if x % 4294967296 < 2147483648 then (x % 4294967296 : Nat)
  else ((x % 4294967296 : Nat) : Int) - 4294967296

/-- The `defaultSharder.Shard` (`sharded/shard.go` lines 29-40): hash the key,
take the signed-32-bit truncated remainder `int32(h) % int32(shards)` and
negate it when negative. Go's `%` on `int32` is `Int.tmod`; a zero divisor
(`int32(shards) = 0`) is a runtime panic, modelled as `none`.
(`defaultSharder.hash` never returns an error: `fnv`'s `Write` cannot
fail.) -/
def Shard (key : List Nat) (shards : Nat) : Option Nat :=
  let h := fnv32a key
  let d := toInt32 shards
  if d = 0 then none
  else
    let sh := (toInt32 h).tmod d
    some (if sh < 0 then -sh else sh).toNat

/-- State of a zero-start log after one write performed with an injected
clock whose `Now().UTC()` is the zero time. -/
def logZ : Log :=
  match Log.write ((LogG.new (List Nat) 0 10 1048576).getD default) false 0
      [42] with
  | .ok l _ => l
  | _ => default

/-- The records `ReadBatch` is expected to deliver: deep copies of the
trace records at indices `base, base+1, …, base+n-1`. -/
def expectedBatch (recs : List Record) (base n : Nat) : List Record :=
  (List.range n).map (fun i => Record.deepCopy (recs.getD (base + i) default))

def log30 : Log := mkTestLog 0 30 30

def recs30 : List Record := mkRecs 0 0 (dsN 30)

/-- Pointer-store model of Go byte slices, for the immutability claim: a
slice value is `none` (Go's nil slice) or `some p`, an index into a store
of byte cells. Mutating a slice in place is `List.set` on the store. The
data-independent code (segments, `getSegment`, `extend`, the write retry
loop, the invariant) is shared with the byte-list model through the `δ`
type parameter. -/
abbrev Store := List (List Nat)

abbrev RecordP := RecordG (Option Nat)

abbrev LogP := LogG (Option Nat)

instance : Inhabited RecordP := ⟨⟨⟨0, 0⟩, none⟩⟩

/-- Dereference a slice value: nil reads as empty. -/
def Store.getBytes (st : Store) (p : Option Nat) : List Nat :=
  match p with
  | none => []
  | some i => st.getD i []

/-- The `append([]byte(nil), bs...)`: returns nil when `bs` is empty, otherwise
allocates a fresh cell holding a copy of the bytes. -/
def Store.copy (st : Store) (p : Option Nat) : Store × Option Nat :=
  if Store.getBytes st p = [] then (st, none)
  else (st ++ [Store.getBytes st p], some st.length)

/-- The `Record.deepCopy` (`memlog.go` lines 43-56) over the store. -/
def RecordP.deepCopyP (st : Store) (r : RecordP) : Store × RecordP :=
  if r.metadata.offset = 0 ∧ r.metadata.created = 0 then (st, ⟨⟨0, 0⟩, none⟩)
  else
    let c := Store.copy st r.data
    (c.1, ⟨⟨r.metadata.offset, r.metadata.created⟩, c.2⟩)

/-- The `Log.write` (`memlog.go` lines 129-177) over the store: the caller's
slice `p` is defensively copied (`dcopy := append([]byte(nil), data...)`,
line 142) before the record is built and stored. -/
def LogP.writeP (l : LogP) (st : Store) (cancelled : Bool) (now : Nat)
    (p : Option Nat) : Store × WriteRes (Option Nat) :=
  if cancelled then (st, .err l (-1) .canceled)
  else if (Store.getBytes st p).length > l.maxRecordSize then
    (st, .err l (-1) .recordTooLarge)
  else if (Store.getBytes st p).length = 0 then (st, .err l (-1) .noData)
  else
    let c := Store.copy st p
    let r : RecordP := ⟨⟨l.offset, now⟩, c.2⟩
    match l.active.write cancelled r with
    | .ok a => (c.1, LogG.writeLoop { l with active := a } cancelled r none 2)
    | .error e => (c.1, LogG.writeLoop l cancelled r (some e) 2)

/-- The `Log.read` (`memlog.go` lines 232-256) over the store: on success the
returned record's bytes are a deep copy freshly allocated in the store. -/
def LogP.readP (l : LogP) (st : Store) (cancelled : Bool) (offset : Int) :
    Store × Except Err RecordP :=
  if cancelled then (st, .error .canceled)
  else if offset ≥ l.offset then (st, .error .futureOffset)
  else if offset < l.startOffset then (st, .error .outOfRange)
  else
    match l.getSegment offset with
    | .error e => (st, .error e)
    | .ok s =>
      match s.read cancelled offset with
      | .error e => (st, .error e)
      | .ok r =>
        let c := RecordP.deepCopyP st r
        (c.1, .ok c.2)

/-- Bytes a reader of `offset` observes: the dereferenced data of the
record returned by a successful `readP`. -/
def LogP.readBytes (l : LogP) (st : Store) (offset : Int) :
    Option (List Nat) :=
  match l.readP st false offset with
  | (st', .ok rec) => some (Store.getBytes st' rec.data)
  | _ => none

instance : Inhabited LogP := ⟨⟨0, 1, 0, none, ⟨0, false, 1, []⟩, 0⟩⟩

def logP0 : LogP := (LogG.new (Option Nat) 0 10 1048576).getD default

/-- The `New` establishes the invariant. -/
theorem Log.wf_new (s0 sz : Int) (mr : Nat) (l : Log)
    (h : LogG.new (List Nat) s0 sz mr = some l) : LogG.Wf l := by
  unfold LogG.new newSegmentG at h
  by_cases h0 : s0 < 0
  · rw [if_pos h0] at h
    simp at h
  rw [if_neg h0] at h
  by_cases h1 : sz ≤ 0
  · rw [if_pos h1] at h
    simp at h
  rw [if_neg h1] at h
  simp only [Option.some.injEq] at h
  subst h
  exact ⟨by dsimp only; omega, by dsimp only; omega, rfl, rfl, by simp,
    by simp, by dsimp only; omega, rfl⟩

theorem LogG.writeLoop_none (l : LogG δ) (c : Bool) (r : RecordG δ)
    (fuel : Nat) :
    LogG.writeLoop l c r none fuel =
      .ok { l with offset := l.offset + 1 } r.metadata.offset := by
  unfold LogG.writeLoop
  rfl

/-- Full characterisation of `Log.write` on a well-formed log: the three
guard errors leave the log unchanged and return offset `-1`; otherwise the
write succeeds, returns the pre-increment offset and steps the state by
`LogG.stepSpec`. In particular `write` never panics and the retry loop always
settles. -/
theorem Log.write_char (l : Log) (hWf : LogG.Wf l) (c : Bool) (now : Nat)
    (d : List Nat) :
    l.write c now d =
      if c = true then .err l (-1) .canceled
      else if d.length > l.maxRecordSize then .err l (-1) .recordTooLarge
      else if d.length = 0 then .err l (-1) .noData
      else .ok (l.stepSpec ⟨⟨l.offset, now⟩, d⟩) l.offset := by
  obtain ⟨h0, hsz, hcap, hseal, hlen, hoff, hstart, hhist⟩ := hWf
  unfold Log.write
  cases c
  case true => simp
  case false =>
  simp only [Bool.false_eq_true, if_false]
  by_cases hbig : d.length > l.maxRecordSize
  · simp [hbig]
  simp only [hbig, if_false]
  by_cases hd : d.length = 0
  · simp [hd]
  simp only [hd, if_false]
  by_cases hfull : l.active.data.length = l.active.cap
  · have hw : l.active.write false ⟨⟨l.offset, now⟩, d⟩ = .error .errFull := by
      unfold SegmentG.write
      simp [hseal, hfull]
    have hne : ¬ l.segmentSize ≤ 0 := by omega
    have hnn : ¬ l.offset < 0 := by omega
    have hext : l.extend = some
        { l with history := some l.active.seal,
                 active := ⟨l.offset, false, l.segmentSize.toNat, []⟩ } := by
      unfold LogG.extend newSegmentG
      simp [hne, hnn]
    have hw2 : SegmentG.write (δ := List Nat)
        ⟨l.offset, false, l.segmentSize.toNat, []⟩ false ⟨⟨l.offset, now⟩, d⟩ =
        .ok ⟨l.offset, false, l.segmentSize.toNat, [⟨⟨l.offset, now⟩, d⟩]⟩ := by
      unfold SegmentG.write
      have h2 : (0 : Nat) ≠ l.segmentSize.toNat := by omega
      simp [h2]
    simp only [hw]
    unfold LogG.writeLoop
    simp only [reduceCtorEq, if_false, hext, hw2, LogG.writeLoop_none,
      LogG.stepSpec, hfull, if_true]
  · have hw : l.active.write false ⟨⟨l.offset, now⟩, d⟩ =
        .ok { l.active with data := l.active.data ++ [⟨⟨l.offset, now⟩, d⟩] } := by
      unfold SegmentG.write
      simp [hseal, hfull]
    simp only [hw, LogG.writeLoop_none, LogG.stepSpec, hfull, if_false]

/-- The `LogG.stepSpec` preserves the invariant. -/
theorem LogG.wf_stepSpec (l : LogG δ) (hWf : LogG.Wf l) (r : RecordG δ) :
    LogG.Wf (l.stepSpec r) := by
  obtain ⟨h0, hsz, hcap, hseal, hlen, hoff, hstart, hhist⟩ := hWf
  unfold LogG.stepSpec
  by_cases hfull : l.active.data.length = l.active.cap
  · simp only [hfull, if_true]
    refine ⟨by (try dsimp only); omega, by (try dsimp only); omega, rfl, rfl,
      by simp; omega, by simp, by (try dsimp only); omega, ?_⟩
    dsimp only [SegmentG.seal]
    refine ⟨rfl, by omega, by (try dsimp only); omega, by omega⟩
  · simp only [hfull, if_false]
    refine ⟨by (try dsimp only); omega, by (try dsimp only); omega, hcap, hseal,
      by simp; omega, by (try dsimp only); simp; omega, by (try dsimp only); omega, ?_⟩
    dsimp only
    cases hh : l.history <;> simp only [hh] at hhist ⊢
    · exact hhist
    · exact hhist

theorem LogG.stepSpec_offset (l : LogG δ) (r : RecordG δ) :
    (l.stepSpec r).offset = l.offset + 1 := by
  unfold LogG.stepSpec
  split <;> rfl

theorem LogG.stepSpec_maxRecordSize (l : LogG δ) (r : RecordG δ) :
    (l.stepSpec r).maxRecordSize = l.maxRecordSize := by
  unfold LogG.stepSpec
  split <;> rfl

theorem LogG.stepSpec_startOffset (l : LogG δ) (r : RecordG δ) :
    (l.stepSpec r).startOffset = l.startOffset := by
  unfold LogG.stepSpec
  split <;> rfl

theorem LogG.stepSpec_segmentSize (l : LogG δ) (r : RecordG δ) :
    (l.stepSpec r).segmentSize = l.segmentSize := by
  unfold LogG.stepSpec
  split <;> rfl

/-- Every reachable log is well-formed. -/
theorem Log.wf_reachable (l : Log) (h : Log.Reachable l) : LogG.Wf l := by
  induction h with
  | init s0 sz mr l h => exact Log.wf_new s0 sz mr l h
  | wrote l c now d l' o hr heq ih =>
    rw [Log.write_char l ih c now d] at heq
    split at heq
    · cases heq
    split at heq
    · cases heq
    split at heq
    · cases heq
    cases heq
    exact LogG.wf_stepSpec l ih _
  | failed l c now d l' o e hr heq ih =>
    rw [Log.write_char l ih c now d] at heq
    split at heq
    · cases heq
      exact ih
    split at heq
    · cases heq
      exact ih
    split at heq
    · cases heq
      exact ih
    cases heq

theorem Log.reachable_writeMany (l : Log) (h : Log.Reachable l)
    (ds : List (Nat × List Nat)) : Log.Reachable (Log.writeMany l ds).1 := by
  induction ds generalizing l with
  | nil => exact h
  | cons p rest ih =>
    unfold Log.writeMany
    cases hw : l.write false p.1 p.2 with
    | ok l' o =>
      simp only []
      exact ih l' (.wrote l false p.1 p.2 l' o h hw)
    | err l' o e =>
      simp only []
      exact ih l' (.failed l false p.1 p.2 l' o e h hw)
    | panicked => exact h
    | diverge => exact h

/-- Offsets returned by a sequence of `Write` calls on a well-formed log:
the `i`-th call returns `-1` when its payload is empty or oversized, and
otherwise returns the log's next offset advanced by the number of earlier
successful writes. -/
theorem Log.writeMany_getD (l : Log) (hWf : LogG.Wf l)
    (ds : List (Nat × List Nat)) (i : Nat) (hi : i < ds.length) :
    (Log.writeMany l ds).2.getD i 0 =
      if (ds.getD i (0, [])).2.length ≠ 0 ∧
          (ds.getD i (0, [])).2.length ≤ l.maxRecordSize
      then l.offset + ((ds.take i).countP
          (fun p => decide (p.2.length ≠ 0 ∧ p.2.length ≤ l.maxRecordSize)) : Int)
      else -1 := by
  induction ds generalizing l i with
  | nil => simp at hi
  | cons p rest ih =>
    unfold Log.writeMany
    rw [Log.write_char l hWf]
    by_cases hvalid : p.2.length ≠ 0 ∧ p.2.length ≤ l.maxRecordSize
    · have hgt : ¬ p.2.length > l.maxRecordSize := by omega
      have hz : ¬ p.2.length = 0 := hvalid.1
      simp only [Bool.false_eq_true, if_false, hgt, hz]
      cases i with
      | zero => simp [hvalid]
      | succ i =>
        have hWf' := LogG.wf_stepSpec l hWf ⟨⟨l.offset, p.1⟩, p.2⟩
        have hi' : i < rest.length := by simpa using hi
        simp only [List.getD_cons_succ, List.take_succ_cons, List.countP_cons,
          LogG.stepSpec_maxRecordSize] at *
        rw [ih (l.stepSpec ⟨⟨l.offset, p.1⟩, p.2⟩) hWf' i hi',
          LogG.stepSpec_maxRecordSize, LogG.stepSpec_offset]
        have hp : (fun p : Nat × List Nat =>
            decide (p.2.length ≠ 0 ∧ p.2.length ≤ l.maxRecordSize)) p = true := by
          simpa using hvalid
        split
        · simp [hp]
          push_cast
          ring
        · rfl
    · have : p.2.length > l.maxRecordSize ∨ p.2.length = 0 := by
        by_cases hz : p.2.length = 0
        · exact Or.inr hz
        · exact Or.inl (by omega)
      have hp : (fun p : Nat × List Nat =>
          decide (p.2.length ≠ 0 ∧ p.2.length ≤ l.maxRecordSize)) p = false := by
        simpa using hvalid
      cases i with
      | zero =>
        rcases this with hgt | hz
        · simp only [if_pos hgt, Bool.false_eq_true, if_false]
          simp only [List.getD_cons_zero]
          rw [if_neg (by simp only [ne_eq, ← List.length_eq_zero]; exact hvalid)]
        · by_cases hgt : p.2.length > l.maxRecordSize
          · simp only [if_pos hgt, Bool.false_eq_true, if_false]
            simp only [List.getD_cons_zero]
            rw [if_neg (by simp only [ne_eq, ← List.length_eq_zero]; exact hvalid)]
          · simp only [Bool.false_eq_true, if_false, if_neg hgt, if_pos hz]
            simp only [List.getD_cons_zero]
            rw [if_neg (by simp only [ne_eq, ← List.length_eq_zero]; exact hvalid)]
      | succ i =>
        have hi' : i < rest.length := by simpa using hi
        rcases this with hgt | hz
        · simp only [if_pos hgt, Bool.false_eq_true, if_false,
            List.getD_cons_succ, List.take_succ_cons, List.countP_cons, hp]
          rw [ih l hWf i hi']
          simp
        · by_cases hgt : p.2.length > l.maxRecordSize
          · simp only [if_pos hgt, Bool.false_eq_true, if_false,
              List.getD_cons_succ, List.take_succ_cons, List.countP_cons, hp]
            rw [ih l hWf i hi']
            simp
          · simp only [Bool.false_eq_true, if_false, if_neg hgt, if_pos hz,
              List.getD_cons_succ, List.take_succ_cons, List.countP_cons, hp]
            rw [ih l hWf i hi']
            simp

theorem listGetD_drop (xs : List α) (n i : Nat) (d : α) :
    (xs.drop n).getD i d = xs.getD (n + i) d := by
  induction n generalizing xs with
  | zero => simp
  | succ n ih =>
    cases xs with
    | nil => simp
    | cons x xs =>
      simp only [List.drop_succ_cons, ih, Nat.succ_add, List.getD_cons_succ]

theorem listGetD_take (xs : List α) (n i : Nat) (d : α) (h : i < n) :
    (xs.take n).getD i d = xs.getD i d := by
  induction xs generalizing n i with
  | nil => simp
  | cons x xs ih =>
    cases n with
    | zero => omega
    | succ n =>
      cases i with
      | zero => simp
      | succ i =>
        simp only [List.take_succ_cons, List.getD_cons_succ]
        exact ih n i (by omega)

theorem mkRecs_length (s0 : Int) (j : Nat) (ds : List (Nat × List Nat)) :
    (mkRecs s0 j ds).length = ds.length := by
  induction ds generalizing j with
  | nil => rfl
  | cons p rest ih => simp [mkRecs, ih]

theorem mkRecs_getD (s0 : Int) (j i : Nat) (ds : List (Nat × List Nat))
    (hi : i < ds.length) :
    (mkRecs s0 j ds).getD i default =
      ⟨⟨s0 + (j + i), (ds.getD i (0, [])).1⟩, (ds.getD i (0, [])).2⟩ := by
  induction ds generalizing j i with
  | nil => simp at hi
  | cons p rest ih =>
    cases i with
    | zero => simp [mkRecs]
    | succ i =>
      simp only [mkRecs, List.getD_cons_succ]
      rw [ih (j + 1) i (by simpa using hi)]
      simp only [RecordG.mk.injEq, Header.mk.injEq, and_true]
      push_cast
      ring

/-- The simulation relation implies the structural invariant. -/
theorem Log.sim_wf (s0 sz : Int) (mr : Nat) (recs : List Record) (r : Nat)
    (l : Log) (h : Log.Sim s0 sz mr recs r l) : LogG.Wf l := by
  obtain ⟨h0, hsz, hs0, hsz', hmr, hoff, hble, hkub, hblt, hcap, hseal,
    hastart, hadata, hhist⟩ := h
  have hdlen : l.active.data.length = recs.length - r * sz.toNat := by
    rw [hadata, List.length_drop]
  refine ⟨by omega, by omega, by omega, hseal, by omega, by omega, by omega, ?_⟩
  cases hh : l.history <;> simp only [hh] at hhist ⊢
  · subst hhist
    simp only [Nat.zero_mul, Nat.cast_zero, add_zero] at hastart
    omega
  · obtain ⟨hr, hhe⟩ := hhist
    subst hhe
    have hmul : r * sz.toNat = (r - 1) * sz.toNat + sz.toNat := by
      cases r with
      | zero => omega
      | succ n => simp [Nat.succ_mul]
    have hlen : ((recs.take (r * sz.toNat)).drop ((r - 1) * sz.toNat)).length =
        r * sz.toNat - (r - 1) * sz.toNat := by
      rw [List.length_drop, List.length_take]
      omega
    refine ⟨rfl, ?_, ?_, ?_⟩ <;> dsimp only
    · rw [hlen]
      omega
    · omega
    · omega

/-- A fresh log simulates the empty trace with zero rotations. -/
theorem Log.sim_new (s0 sz : Int) (mr : Nat) (l : Log)
    (h : LogG.new (List Nat) s0 sz mr = some l) :
    Log.Sim s0 sz mr [] 0 l := by
  unfold LogG.new newSegmentG at h
  by_cases h0 : s0 < 0
  · rw [if_pos h0] at h
    simp at h
  rw [if_neg h0] at h
  by_cases h1 : sz ≤ 0
  · rw [if_pos h1] at h
    simp at h
  rw [if_neg h1] at h
  simp only [Option.some.injEq] at h
  subst h
  exact ⟨by omega, by omega, rfl, rfl, rfl, by simp, by simp, by simp,
    by simp, rfl, rfl, by simp, by simp, rfl⟩

/-- The `LogG.stepSpec` (the state change of a successful write) preserves the
simulation relation, appending the written record to the trace and
incrementing the rotation count exactly when the active segment was full. -/
theorem Log.sim_step (s0 sz : Int) (mr : Nat) (recs : List Record) (r : Nat)
    (l : Log) (h : Log.Sim s0 sz mr recs r l) (rec : Record) :
    Log.Sim s0 sz mr (recs ++ [rec])
      (if l.active.data.length = l.active.cap then r + 1 else r)
      (l.stepSpec rec) := by
  obtain ⟨h0, hsz, hs0, hsz', hmr, hoff, hble, hkub, hblt, hcap, hseal,
    hastart, hadata, hhist⟩ := h
  have hdlen : l.active.data.length = recs.length - r * sz.toNat := by
    rw [hadata, List.length_drop]
  have hs : 0 < sz.toNat := by omega
  have hlen1 : (recs ++ [rec]).length = recs.length + 1 := by
    simp
  unfold LogG.stepSpec
  by_cases hfull : l.active.data.length = l.active.cap
  · simp only [hfull, if_true]
    have hb : (r + 1) * sz.toNat = recs.length := by
      rw [Nat.succ_mul]
      omega
    refine ⟨h0, hsz, hs0, hsz', hmr,
      by dsimp only; rw [hlen1]; push_cast; omega,
      by rw [hlen1, hb]; omega,
      by rw [hlen1, hb]; omega,
      fun _ => by rw [hlen1, hb]; omega,
      by dsimp only; rw [hsz'],
      rfl,
      by dsimp only; rw [hb]; omega,
      by dsimp only; rw [hb, List.drop_left],
      ?_⟩
    refine ⟨Nat.succ_pos r, ?_⟩
    have htake : (recs ++ [rec]).take ((r + 1) * sz.toNat) = recs := by
      rw [hb, List.take_left]
    have heta : ({ l.active with sealed := true } : Segment) =
        ⟨l.active.start, true, l.active.cap, l.active.data⟩ := rfl
    simp only [SegmentG.seal, Nat.add_sub_cancel, htake, heta, hastart, hcap,
      hadata]
  · simp only [hfull, if_false]
    have hlt : recs.length < r * sz.toNat + sz.toNat := by omega
    refine ⟨h0, hsz, hs0, hsz', hmr,
      by dsimp only; rw [hlen1]; push_cast; omega,
      by rw [hlen1]; omega,
      by rw [hlen1]; omega,
      fun hr => by rw [hlen1]; have := hblt hr; omega,
      hcap,
      hseal,
      hastart,
      ?_, ?_⟩
    · dsimp only
      rw [hadata, List.drop_append_of_le_length hble]
    · dsimp only
      cases hh : l.history <;> simp only [hh] at hhist ⊢
    
      · exact hhist
      · obtain ⟨hr, hhe⟩ := hhist
        refine ⟨hr, ?_⟩
        rw [List.take_append_of_le_length hble]
        exact hhe

/-- Writing a list of valid payloads (non-empty, within the size limit)
preserves the simulation, extending the trace by the corresponding records. -/
theorem Log.sim_writeMany (s0 sz : Int) (mr : Nat) (recs : List Record)
    (r : Nat) (l : Log) (h : Log.Sim s0 sz mr recs r l)
    (ds : List (Nat × List Nat))
    (hv : ∀ p ∈ ds, p.2.length ≠ 0 ∧ p.2.length ≤ mr) :
    ∃ r', Log.Sim s0 sz mr (recs ++ mkRecs s0 recs.length ds) r'
      (Log.writeMany l ds).1 := by
  induction ds generalizing l recs r with
  | nil => exact ⟨r, by simpa [mkRecs] using h⟩
  | cons p rest ih =>
    obtain ⟨hne, hle⟩ := hv p (by simp)
    have hWf := Log.sim_wf s0 sz mr recs r l h
    have hmr : l.maxRecordSize = mr := h.2.2.2.2.1
    have hoffeq : l.offset = s0 + recs.length := h.2.2.2.2.2.1
    have hok : l.write false p.1 p.2 =
        .ok (l.stepSpec ⟨⟨l.offset, p.1⟩, p.2⟩) l.offset := by
      rw [Log.write_char l hWf false p.1 p.2]
      rw [if_neg (by simp)]
      rw [if_neg (by omega)]
      rw [if_neg hne]
    unfold Log.writeMany
    rw [hok]
    simp only []
    have hstep := Log.sim_step s0 sz mr recs r l h
      (⟨⟨l.offset, p.1⟩, p.2⟩ : Record)
    obtain ⟨r2, hsim⟩ := ih _ _ _ hstep (fun q hq => hv q (by simp [hq]))
    refine ⟨r2, ?_⟩
    have htr : recs ++ mkRecs s0 recs.length (p :: rest) =
        (recs ++ [(⟨⟨l.offset, p.1⟩, p.2⟩ : Record)]) ++
          mkRecs s0 (recs ++ [(⟨⟨l.offset, p.1⟩, p.2⟩ : Record)]).length rest := by
      simp only [List.length_append, List.length_singleton, mkRecs, hoffeq,
        List.append_assoc, List.singleton_append]
    rw [htr]
    exact hsim

/-- On a well-formed log the earliest stored offset lies between the
configured start offset and the next write offset. -/
theorem Log.earliest_bounds (l : Log) (hWf : LogG.Wf l) :
    l.startOffset ≤ l.earliestStored ∧ l.earliestStored ≤ l.offset := by
  obtain ⟨h0, hsz, hcap, hseal, hlen, hoff, hstart, hhist⟩ := hWf
  unfold Log.earliestStored
  cases hh : l.history <;> simp only [hh] at hhist ⊢
  · omega
  · obtain ⟨hs1, hs2, hs3, hs4⟩ := hhist
    omega

/-- The `read` with an untripped context fails with `futureOffset` whenever the
requested offset has not been assigned yet. -/
theorem Log.read_future (l : Log) (o : Int) (h : l.offset ≤ o) :
    l.read false o = .error .futureOffset := by
  unfold Log.read
  rw [if_neg (by simp), if_pos (by omega)]

/-- The `read` with an untripped context fails with `outOfRange` whenever the
requested offset is below the earliest stored offset (below the configured
start, or purged by rotation). -/
theorem Log.read_outOfRange (l : Log) (hWf : LogG.Wf l) (o : Int)
    (h1 : o < l.offset) (h2 : o < l.earliestStored) :
    l.read false o = .error .outOfRange := by
  obtain ⟨h0, hsz, hcap, hseal, hlen, hoff, hstart, hhist⟩ := hWf
  unfold Log.read
  rw [if_neg (by simp), if_neg (by omega)]
  by_cases hlow : o < l.startOffset
  · rw [if_pos hlow]
  rw [if_neg hlow]
  cases hh : l.history <;> unfold Log.earliestStored at h2 <;>
      simp only [hh] at hhist h2
  · omega
  · obtain ⟨hs1, hs2, hs3, hs4⟩ := hhist
    have hgs : l.getSegment o = .error .outOfRange := by
      unfold LogG.getSegment
      rw [if_neg (by omega), hh]
      dsimp only
      rw [if_neg (by omega)]
    rw [hgs]

/-- The `read` with an untripped context succeeds on every offset between the
earliest stored offset and the last assigned offset. -/
theorem Log.read_ok (l : Log) (hWf : LogG.Wf l) (o : Int)
    (h1 : l.earliestStored ≤ o) (h2 : o < l.offset) :
    ∃ rec, l.read false o = .ok rec := by
  obtain ⟨h0, hsz, hcap, hseal, hlen, hoff, hstart, hhist⟩ := hWf
  by_cases hcase : l.active.start ≤ o
  · have hlen0 : l.active.data.length ≠ 0 := by omega
    have hgs : l.getSegment o = .ok l.active := by
      unfold LogG.getSegment SegmentG.currentOffset
      rw [if_pos (by omega), if_neg hlen0, if_pos (by omega)]
    have hsr : l.active.read false o =
        .ok (l.active.data.getD (o - l.active.start).toNat default) := by
      unfold SegmentG.read
      rw [if_neg (by simp), if_neg (by omega)]
    refine ⟨Record.deepCopy
      (l.active.data.getD (o - l.active.start).toNat default), ?_⟩
    unfold Log.read
    rw [if_neg (by simp), if_neg (by omega), if_neg (by omega), hgs]
    dsimp only
    rw [hsr]
  · cases hh : l.history <;> unfold Log.earliestStored at h1 <;>
        simp only [hh] at hhist h1
    · omega
    · obtain ⟨hs1, hs2, hs3, hs4⟩ := hhist
      rename_i hseg
      have hszc : ((l.segmentSize.toNat : Nat) : Int) = l.segmentSize := by
        omega
      have hgs : l.getSegment o = .ok hseg := by
        unfold LogG.getSegment
        rw [if_neg (by omega), hh]
        dsimp only
        rw [if_pos (by omega)]
      have hsr : hseg.read false o =
          .ok (hseg.data.getD (o - hseg.start).toNat default) := by
        unfold SegmentG.read
        rw [if_neg (by simp), if_neg (by omega)]
      refine ⟨Record.deepCopy
        (hseg.data.getD (o - hseg.start).toNat default), ?_⟩
      unfold Log.read
      rw [if_neg (by simp), if_neg (by omega), if_neg (by omega), hgs]
      dsimp only
      rw [hsr]

/-- Content-level read: on a simulated log, reading any offset between the
earliest retained offset and the tail returns (a deep copy of) exactly the
record of the trace entry for that offset. -/
theorem Log.sim_read (s0 sz : Int) (mr : Nat) (recs : List Record) (r : Nat)
    (l : Log) (h : Log.Sim s0 sz mr recs r l) (o : Int)
    (hlo : s0 + ((r - 1) * sz.toNat : Nat) ≤ o)
    (hhi : o < s0 + recs.length) :
    l.read false o =
      .ok (Record.deepCopy (recs.getD (o - s0).toNat default)) := by
  obtain ⟨h0, hsz, hs0, hsz', hmr, hoff, hble, hkub, hblt, hcap, hseal,
    hastart, hadata, hhist⟩ := h
  have hs : 0 < sz.toNat := by omega
  have hdlen : l.active.data.length = recs.length - r * sz.toNat := by
    rw [hadata, List.length_drop]
  by_cases hcase : l.active.start ≤ o
  · have hbk : (r * sz.toNat : Int) ≤ o - s0 := by
      rw [hastart] at hcase
      omega
    have hlen0 : l.active.data.length ≠ 0 := by
      rw [hastart] at hcase
      omega
    have hgs : l.getSegment o = .ok l.active := by
      unfold LogG.getSegment SegmentG.currentOffset
      rw [if_pos (by omega), if_neg hlen0, if_pos (by omega)]
    have hsr : l.active.read false o =
        .ok (l.active.data.getD (o - l.active.start).toNat default) := by
      unfold SegmentG.read
      rw [if_neg (by simp), if_neg (by omega)]
    unfold Log.read
    rw [if_neg (by simp), if_neg (by omega), if_neg (by omega), hgs]
    dsimp only
    rw [hsr, hadata, listGetD_drop]
    have hidx : r * sz.toNat + (o - l.active.start).toNat = (o - s0).toNat := by
      rw [hastart]
      omega
    rw [hidx]
  · have hb0 : 0 < r := by
      by_contra hr0
      have hr00 : r = 0 := by omega
      subst hr00
      simp only [Nat.zero_mul, Nat.cast_zero, add_zero] at hastart
      simp only [Nat.zero_sub, Nat.zero_mul, Nat.cast_zero, add_zero] at hlo
      omega
    cases hh : l.history
    · simp only [hh] at hhist
      omega
    · rename_i hseg
      simp only [hh] at hhist
      obtain ⟨hr, hhe⟩ := hhist
      subst hhe
      have hmul : r * sz.toNat = (r - 1) * sz.toNat + sz.toNat := by
        cases r with
        | zero => omega
        | succ n => simp [Nat.succ_mul]
      have hszc : ((sz.toNat : Nat) : Int) = sz := by omega
      have hlen2 : ((recs.take (r * sz.toNat)).drop
          ((r - 1) * sz.toNat)).length = sz.toNat := by
        rw [List.length_drop, List.length_take]
        omega
      have hoa : o < l.active.start := by omega
      rw [hastart] at hoa
      have hgs : l.getSegment o = .ok
          ⟨s0 + ((r - 1) * sz.toNat : Nat), true, sz.toNat,
            (recs.take (r * sz.toNat)).drop ((r - 1) * sz.toNat)⟩ := by
        unfold LogG.getSegment
        rw [if_neg (by omega), hh]
        dsimp only
        rw [if_pos (by constructor <;> omega)]
      have hsr : SegmentG.read (δ := List Nat)
          ⟨s0 + ((r - 1) * sz.toNat : Nat), true, sz.toNat,
            (recs.take (r * sz.toNat)).drop ((r - 1) * sz.toNat)⟩ false o =
          .ok (((recs.take (r * sz.toNat)).drop ((r - 1) * sz.toNat)).getD
            (o - (s0 + ((r - 1) * sz.toNat : Nat))).toNat default) := by
        unfold SegmentG.read
        rw [if_neg (by simp)]
        rw [if_neg (by dsimp only; rw [hlen2]; omega)]
      unfold Log.read
      rw [if_neg (by simp), if_neg (by omega), if_neg (by omega), hgs]
      dsimp only
      rw [hsr, listGetD_drop, listGetD_take _ _ _ _ (by omega)]
      have hidx : (r - 1) * sz.toNat +
          (o - (s0 + ((r - 1) * sz.toNat : Nat))).toNat = (o - s0).toNat := by
        omega
      rw [hidx]

/-- The `offsetRange` on a simulated non-empty log: earliest is the start of the
oldest retained segment, `s0 + (r-1)*segmentSize` records in, and latest is
the last assigned offset. -/
theorem Log.sim_offsetRange (s0 sz : Int) (mr : Nat) (recs : List Record)
    (r : Nat) (l : Log) (h : Log.Sim s0 sz mr recs r l) (hne : recs ≠ []) :
    l.offsetRange = (s0 + ((r - 1) * sz.toNat : Nat),
      s0 + recs.length - 1) := by
  obtain ⟨h0, hsz, hs0, hsz', hmr, hoff, hble, hkub, hblt, hcap, hseal,
    hastart, hadata, hhist⟩ := h
  have hk : recs.length ≠ 0 := by
    intro hcon
    exact hne (List.length_eq_zero.mp hcon)
  have hdlen : l.active.data.length = recs.length - r * sz.toNat := by
    rw [hadata, List.length_drop]
  unfold LogG.offsetRange
  cases hh : l.history
  · simp only [hh] at hhist
    subst hhist
    simp only [Nat.zero_mul, Nat.cast_zero, add_zero] at hastart hdlen ⊢
    have hlen0 : l.active.data.length ≠ 0 := by omega
    unfold SegmentG.currentOffset
    rw [if_neg hlen0, if_neg (by omega)]
    simp only [Nat.zero_sub, Nat.zero_mul, Nat.cast_zero, add_zero,
      Prod.mk.injEq]
    constructor
    · omega
    · omega
  · rename_i hseg
    simp only [hh] at hhist
    obtain ⟨hr, hhe⟩ := hhist
    have hlen0 : l.active.data.length ≠ 0 := by
      have := hblt hr
      omega
    unfold SegmentG.currentOffset
    rw [if_neg hlen0]
    subst hhe
    simp only [Prod.mk.injEq, true_and]
    omega

theorem listGetD_mem (xs : List α) (i : Nat) (d : α) (h : i < xs.length) :
    xs.getD i d ∈ xs := by
  induction xs generalizing i with
  | nil => simp at h
  | cons x xs ih =>
    cases i with
    | zero => simp
    | succ i =>
      simp only [List.getD_cons_succ]
      exact List.mem_cons_of_mem x (ih i (by simpa using h))

/-- Claim C1, counterexample: with startOffset 0 and segmentSize 10, after
20 writes exactly one rotation has occurred (`Sim` with `r = 1`), yet
`Range` reports `(0, 19)` — not `(10, 19)` as the claim predicts from
`earliest = startOffset + r*segmentSize` — and `Read(0)` succeeds instead
of failing with `ErrOutOfRange`. -/
theorem claim_C1_cex :
    Log.Sim 0 10 1048576 recs20 1 log20 ∧
    log20.offsetRange = (0, 19) ∧
    log20.offsetRange.1 ≠ 0 + 1 * 10 ∧
    log20.read false 0 = .ok ⟨⟨0, 1⟩, [0]⟩ ∧
    log20.read false 10 = .ok ⟨⟨10, 1⟩, [10]⟩ ∧
    log20.read false 19 = .ok ⟨⟨19, 1⟩, [19]⟩ ∧
    log20.read false 20 = .error .futureOffset := by
  decide

/-- Claim C1 (amended): after `r ≥ 1` rotations the earliest offset
reported by `Range` equals `startOffset + (r-1)*segmentSize`; that offset is
readable without error, and the offset just below it reads as
`ErrOutOfRange`. (In particular with startOffset 0, segmentSize 10 and 20
writes: `Range = (0, 19)` and `Read(0)` succeeds, see the counterexample
theorem.) -/
theorem claim_C1 (s0 sz : Int) (mr : Nat) (recs : List Record) (r : Nat)
    (l : Log) (h : Log.Sim s0 sz mr recs r l) (hr : 1 ≤ r) :
    l.offsetRange.1 = s0 + ((r - 1) * sz.toNat : Nat) ∧
    (∃ rec, l.read false l.offsetRange.1 = .ok rec) ∧
    l.read false (l.offsetRange.1 - 1) = .error .outOfRange := by
  have hWf := Log.sim_wf s0 sz mr recs r l h
  have h' := h
  obtain ⟨h0, hsz, hs0, hsz', hmr, hoff, hble, hkub, hblt, hcap, hseal,
    hastart, hadata, hhist⟩ := h'
  have hbk := hblt hr
  have hne : recs ≠ [] := by
    intro hcon
    rw [hcon] at hbk
    simp at hbk
  have hmul : r * sz.toNat = (r - 1) * sz.toNat + sz.toNat := by
    cases r with
    | zero => omega
    | succ n => simp [Nat.succ_mul]
  have hs : 0 < sz.toNat := by omega
  have horange := Log.sim_offsetRange s0 sz mr recs r l h hne
  have hes : l.earliestStored = s0 + ((r - 1) * sz.toNat : Nat) := by
    unfold Log.earliestStored
    cases hh : l.history
    · simp only [hh] at hhist
      omega
    · simp only [hh] at hhist
      rw [hhist.2]
  have he1 : l.offsetRange.1 = s0 + ((r - 1) * sz.toNat : Nat) := by
    rw [horange]
  refine ⟨he1, ?_, ?_⟩
  · exact Log.read_ok l hWf _ (by rw [hes, he1]) (by rw [he1, hoff]; omega)
  · exact Log.read_outOfRange l hWf _ (by rw [he1, hoff]; omega)
      (by rw [he1, hes]; omega)

/-- Claim C1, witness: the amended statement instantiated on the
20-write log. -/
theorem claim_C1_witness :
    Log.Sim 0 10 1048576 recs20 1 log20 ∧
    (log20.offsetRange.1 = 0 + ((1 - 1) * (10 : Int).toNat : Nat) ∧
      (∃ rec, log20.read false log20.offsetRange.1 = .ok rec) ∧
      log20.read false (log20.offsetRange.1 - 1) = .error .outOfRange) :=
  ⟨by decide, claim_C1 0 10 1048576 recs20 1 log20 (by decide) (le_refl 1)⟩

/-- Claim C2: on a freshly created log, the `i`-th `Write` of a sequence
returns `startOffset + (number of earlier successful writes)` when its
payload is valid (non-empty and within the limit), and `-1` (leaving the
log unchanged) when it is not; successful writes therefore return
`startOffset, startOffset+1, …` in order. -/
theorem claim_C2 (s0 sz : Int) (mr : Nat) (l0 : Log)
    (hnew : LogG.new (List Nat) s0 sz mr = some l0)
    (ds : List (Nat × List Nat)) (i : Nat) (hi : i < ds.length) :
    (Log.writeMany l0 ds).2.getD i 0 =
      if (ds.getD i (0, [])).2.length ≠ 0 ∧ (ds.getD i (0, [])).2.length ≤ mr
      then s0 + ((ds.take i).countP
        (fun p => decide (p.2.length ≠ 0 ∧ p.2.length ≤ mr)) : Int)
      else -1 := by
  have hWf := Log.wf_new s0 sz mr l0 hnew
  have hsim := Log.sim_new s0 sz mr l0 hnew
  have hoff : l0.offset = s0 := by
    have := hsim.2.2.2.2.2.1
    simpa using this
  have hmr : l0.maxRecordSize = mr := hsim.2.2.2.2.1
  have h1 := Log.writeMany_getD l0 hWf ds i hi
  rw [hmr] at h1
  rw [h1, hoff]

/-- Claim C2, witness: a fresh log with start offset 10; the second write
(empty payload) fails with `-1`, the third write returns offset 11. -/
theorem claim_C2_witness :
    (Log.writeMany ((LogG.new (List Nat) 10 10 100).getD default)
        [(1, [7]), (1, []), (1, [9])]).2.getD 2 0 =
      if ([(1, [7]), (1, ([] : List Nat)), (1, [9])].getD 2 (0, [])).2.length ≠ 0 ∧
          ([(1, [7]), (1, ([] : List Nat)), (1, [9])].getD 2 (0, [])).2.length ≤ 100
      then 10 + (([(1, [7]), (1, ([] : List Nat)), (1, [9])].take 2).countP
        (fun p => decide (p.2.length ≠ 0 ∧ p.2.length ≤ 100)) : Int)
      else -1 :=
  claim_C2 10 10 100 ((LogG.new (List Nat) 10 10 100).getD default)
    (by decide) [(1, [7]), (1, []), (1, [9])] 2 (by decide)

/-- Claim C3: a reachable log never stores more than `2 * segmentSize`
records (active plus history segment). -/
theorem claim_C3 (l : Log) (h : Log.Reachable l) :
    l.recordCount ≤ 2 * l.segmentSize.toNat := by
  have hWf := Log.wf_reachable l h
  obtain ⟨h0, hsz, hcap, hseal, hlen, hoff, hstart, hhist⟩ := hWf
  unfold Log.recordCount
  cases hh : l.history <;> simp only [hh] at hhist ⊢
  · omega
  · obtain ⟨hs1, hs2, hs3, hs4⟩ := hhist
    omega

/-- Claim C3, witness: the 20-write log is reachable and stores at most 20
records. -/
theorem claim_C3_witness :
    Log.Reachable log20 ∧ log20.recordCount ≤ 2 * log20.segmentSize.toNat := by
  have hr : Log.Reachable log20 := by
    have he : log20 = (Log.writeMany log0 (dsN 20)).1 := by decide
    rw [he]
    exact Log.reachable_writeMany log0
      (Log.Reachable.init 0 10 1048576 log0 (by decide)) (dsN 20)
  exact ⟨hr, claim_C3 log20 hr⟩

/-- Claim C4: on a log built by writing valid payloads with a clock that
never returns the zero time (as the wall clock does), reading any offset `o`
between the earliest and latest offsets reported by `Range` succeeds and
returns a record with `Header.Offset = o` whose data is exactly the payload
of the write that was assigned offset `o`. -/
theorem claim_C4 (s0 sz : Int) (mr : Nat) (l0 : Log)
    (hnew : LogG.new (List Nat) s0 sz mr = some l0)
    (ds : List (Nat × List Nat))
    (hv : ∀ p ∈ ds, p.2.length ≠ 0 ∧ p.2.length ≤ mr)
    (hclock : ∀ p ∈ ds, p.1 ≠ 0)
    (hne : ds ≠ [])
    (o : Int)
    (hlo : ((Log.writeMany l0 ds).1.offsetRange).1 ≤ o)
    (hhi : o ≤ ((Log.writeMany l0 ds).1.offsetRange).2) :
    (Log.writeMany l0 ds).1.read false o =
      .ok ⟨⟨o, (ds.getD (o - s0).toNat (0, [])).1⟩,
        (ds.getD (o - s0).toNat (0, [])).2⟩ := by
  have hsim0 := Log.sim_new s0 sz mr l0 hnew
  obtain ⟨r, hsim⟩ := Log.sim_writeMany s0 sz mr [] 0 l0 hsim0 ds hv
  simp only [List.nil_append, List.length_nil] at hsim
  have hlenr := mkRecs_length s0 0 ds
  have hkne : mkRecs s0 0 ds ≠ [] := by
    intro hcon
    apply hne
    apply List.length_eq_zero.mp
    rw [← hlenr, hcon]
    rfl
  have horange := Log.sim_offsetRange s0 sz mr (mkRecs s0 0 ds) r _ hsim hkne
  rw [horange] at hlo hhi
  dsimp only at hlo hhi
  rw [hlenr] at hhi
  have h0s : (0 : Int) ≤ s0 := hsim.1
  have hread := Log.sim_read s0 sz mr (mkRecs s0 0 ds) r _ hsim o hlo
    (by rw [hlenr]; omega)
  rw [hread]
  have hio : (o - s0).toNat < ds.length := by omega
  rw [mkRecs_getD s0 0 (o - s0).toNat ds hio]
  have ht := hclock _ (listGetD_mem ds (o - s0).toNat (0, []) hio)
  unfold Record.deepCopy
  rw [if_neg (by intro hcon; exact ht hcon.2)]
  dsimp only
  simp only [Nat.cast_zero, zero_add, Nat.cast_add]
  have hoeq : s0 + ((o - s0).toNat : Int) = o := by omega
  rw [hoeq]

/-- Claim C4, witness: the 20-write log (start 0, segment size 10), reading
offset 15 back. -/
theorem claim_C4_witness :
    (∀ p ∈ dsN 20, p.2.length ≠ 0 ∧ p.2.length ≤ 1048576) ∧
    (Log.writeMany log0 (dsN 20)).1.read false 15 =
      .ok ⟨⟨15, ((dsN 20).getD ((15 : Int) - 0).toNat (0, [])).1⟩,
        ((dsN 20).getD ((15 : Int) - 0).toNat (0, [])).2⟩ :=
  ⟨by decide, claim_C4 0 10 1048576 log0 (by decide) (dsN 20) (by decide)
    (by decide) (by decide) 15 (by decide) (by decide)⟩

/-- Claim C5: on a well-formed log, `read` with an untripped context fails
with `futureOffset` exactly when the offset is at or past the next write
offset; fails with `outOfRange` exactly when the offset is below the next
write offset but below the configured start or purged (below the earliest
stored offset, which every negative offset is); and succeeds otherwise. -/
theorem claim_C5 (l : Log) (hWf : LogG.Wf l) (o : Int) :
    (l.read false o = .error .futureOffset ↔ l.offset ≤ o) ∧
    (l.read false o = .error .outOfRange ↔
      o < l.offset ∧ (o < l.startOffset ∨ o < l.earliestStored)) ∧
    (l.earliestStored ≤ o → o < l.offset → ∃ rec, l.read false o = .ok rec) := by
  have hb := Log.earliest_bounds l hWf
  refine ⟨⟨?_, fun h => Log.read_future l o h⟩, ⟨?_, ?_⟩, ?_⟩
  · intro hread
    by_contra hlt
    push_neg at hlt
    by_cases h2 : o < l.earliestStored
    · rw [Log.read_outOfRange l hWf o hlt h2] at hread
      simp at hread
    · push_neg at h2
      obtain ⟨rec, hrec⟩ := Log.read_ok l hWf o h2 hlt
      rw [hrec] at hread
      simp at hread
  · intro hread
    constructor
    · by_contra hge
      push_neg at hge
      rw [Log.read_future l o hge] at hread
      simp at hread
    · by_cases h2 : o < l.earliestStored
      · exact Or.inr h2
      · push_neg at h2
        by_cases h3 : l.offset ≤ o
        · rw [Log.read_future l o h3] at hread
          simp at hread
        · push_neg at h3
          obtain ⟨rec, hrec⟩ := Log.read_ok l hWf o h2 h3
          rw [hrec] at hread
          simp at hread
  · rintro ⟨h1, h2⟩
    rcases h2 with h2 | h2
    · exact Log.read_outOfRange l hWf o h1 (by omega)
    · exact Log.read_outOfRange l hWf o h1 h2
  · intro h1 h2
    exact Log.read_ok l hWf o h1 h2

/-- Claim C5, witness: the error classification instantiated on the
20-write log at offset 5. -/
theorem claim_C5_witness :
    LogG.Wf log20 ∧
    ((log20.read false 5 = .error .futureOffset ↔ log20.offset ≤ 5) ∧
      (log20.read false 5 = .error .outOfRange ↔
        5 < log20.offset ∧
          ((5 : Int) < log20.startOffset ∨ 5 < log20.earliestStored)) ∧
      (log20.earliestStored ≤ 5 → 5 < log20.offset →
        ∃ rec, log20.read false 5 = .ok rec)) :=
  ⟨by decide, claim_C5 log20 (by decide) 5⟩

/-- On a well-formed log, `write` always settles as a success or as one of
the three guard errors (which leave the log unchanged and return `-1`). -/
theorem Log.write_settles (l : Log) (hWf : LogG.Wf l) (c : Bool) (now : Nat)
    (d : List Nat) :
    (∃ l' o, l.write c now d = .ok l' o) ∨
      ∃ e, l.write c now d = .err l (-1) e := by
  rw [Log.write_char l hWf c now d]
  split
  · exact Or.inr ⟨_, rfl⟩
  split
  · exact Or.inr ⟨_, rfl⟩
  split
  · exact Or.inr ⟨_, rfl⟩
  · exact Or.inl ⟨_, _, rfl⟩

/-- Claim C8: on a well-formed log the write path never reaches its panic
or non-termination branches, and whenever the active segment is full,
`extend` succeeds and the single retry of the segment write succeeds — it
returns neither `errFull` nor `errSealed` again. -/
theorem claim_C8 (l : Log) (hWf : LogG.Wf l) :
    (∀ (c : Bool) (now : Nat) (d : List Nat),
      l.write c now d ≠ .panicked ∧ l.write c now d ≠ .diverge) ∧
    (∀ rec : Record, l.active.data.length = l.active.cap →
      ∃ l1, l.extend = some l1 ∧
        ∃ a, l1.active.write false rec = .ok a ∧
          l1.active.write false rec ≠ .error .errFull ∧
          l1.active.write false rec ≠ .error .errSealed) := by
  have hWf' := hWf
  obtain ⟨h0, hsz, hcap, hseal, hlen, hoff, hstart, hhist⟩ := hWf'
  constructor
  · intro c now d
    rcases Log.write_settles l hWf c now d with ⟨l', o, h⟩ | ⟨e, h⟩ <;>
      rw [h] <;> exact ⟨by simp, by simp⟩
  · intro rec hfull
    have hnn : ¬ l.offset < 0 := by omega
    have hne : ¬ l.segmentSize ≤ 0 := by omega
    have hext : l.extend = some
        { l with history := some l.active.seal,
                 active := ⟨l.offset, false, l.segmentSize.toNat, []⟩ } := by
      unfold LogG.extend newSegmentG
      simp [hne, hnn]
    have hw2 : SegmentG.write (δ := List Nat)
        ⟨l.offset, false, l.segmentSize.toNat, []⟩ false rec =
        .ok ⟨l.offset, false, l.segmentSize.toNat, [rec]⟩ := by
      unfold SegmentG.write
      have h2 : (0 : Nat) ≠ l.segmentSize.toNat := by omega
      simp [h2]
    exact ⟨_, hext, _, hw2, by rw [hw2]; simp, by rw [hw2]; simp⟩

/-- Claim C8, witness: the no-panic statement instantiated on the 20-write
log. -/
theorem claim_C8_witness :
    LogG.Wf log20 ∧
    log20.write false 5 [1] ≠ .panicked ∧
    log20.write false 5 [1] ≠ .diverge := by
  have h : LogG.Wf log20 := by decide
  exact ⟨h, (claim_C8 log20 h).1 false 5 [1]⟩

/-- Truncated remainder bound: for a non-zero divisor, `|a tmod d| < |d|`. -/
theorem tmod_natAbs_lt (x d : Int) (hd : d ≠ 0) :
    (x.tmod d).natAbs < d.natAbs := by
  have hneg : ∀ a b : Int, (-a).tmod b = -(a.tmod b) := by
    intro a b
    rw [Int.tmod_def, Int.tmod_def, Int.neg_tdiv]
    ring
  have habs : ∀ y : Int, 0 < y → ∀ z : Int, (z.tmod y).natAbs < y.natAbs := by
    intro y hy z
    rcases le_or_lt 0 z with hz | hz
    · have h1 := Int.tmod_nonneg y hz
      have h2 := Int.tmod_lt_of_pos z hy
      omega
    · have h3 : z.tmod y = -((-z).tmod y) := by
        have h4 := hneg (-z) y
        rw [neg_neg] at h4
        exact h4
      have h1 := Int.tmod_nonneg y (by omega : (0 : Int) ≤ -z)
      have h2 := Int.tmod_lt_of_pos (-z) hy
      omega
  rcases lt_or_gt_of_ne hd with hdneg | hdpos
  · have h := habs (-d) (by omega) x
    rw [Int.tmod_neg] at h
    omega
  · exact habs d hdpos x

/-- Claim C9, counterexample: for the shard count `N = 2^32` (`N ≥ 2`, and
representable in Go's 64-bit `uint`), `int32(N)` is `0`, so
`int32(h) % int32(N)` divides by zero and `Shard` panics instead of
succeeding. -/
theorem claim_C9_cex : Shard [] 4294967296 = none := by decide

/-- Claim C9 (amended): for every key and every shard count
`2 ≤ N < 2^32`, `Shard` succeeds and returns the absolute value of
`int32(FNV-1a-32(key)) % int32(N)` (truncated remainder), a non-negative
index strictly less than `N`; at `N = 2^32` it panics with a division by
zero. -/
theorem claim_C9 (key : List Nat) (N : Nat) (h2 : 2 ≤ N)
    (h32 : N < 4294967296) :
    Shard key N = some ((toInt32 (fnv32a key)).tmod (toInt32 N)).natAbs ∧
    ((toInt32 (fnv32a key)).tmod (toInt32 N)).natAbs < N := by
  have hd0 : toInt32 N ≠ 0 := by
    unfold toInt32
    split <;> omega
  constructor
  · unfold Shard
    rw [if_neg hd0]
    dsimp only
    congr 1
    split <;> omega
  · have hlt := tmod_natAbs_lt (toInt32 (fnv32a key)) (toInt32 N) hd0
    have hdabs : (toInt32 N).natAbs ≤ N := by
      unfold toInt32
      split <;> omega
    omega

/-- Claim C9, witness: key `[1, 2, 3]` with the default shard count 1000. -/
theorem claim_C9_witness :
    Shard [1, 2, 3] 1000 =
      some ((toInt32 (fnv32a [1, 2, 3])).tmod (toInt32 1000)).natAbs ∧
    ((toInt32 (fnv32a [1, 2, 3])).tmod (toInt32 1000)).natAbs < 1000 :=
  claim_C9 [1, 2, 3] 1000 (by decide) (by decide)

/-- Claim C10: the record stored at offset 0 of `logZ` has zero header
(offset 0, zero Created) and payload `[42]`, yet `read 0` returns no error
and yields the completely empty record — nil data, zero header — because
`deepCopy` treats a record with zero offset and zero creation time as
invalid. -/
theorem claim_C10 :
    logZ.active.data.getD 0 default = ⟨⟨0, 0⟩, [42]⟩ ∧
    logZ.read false 0 = .ok ⟨⟨0, 0⟩, []⟩ ∧
    Record.deepCopy ⟨⟨0, 0⟩, [42]⟩ = ⟨⟨0, 0⟩, []⟩ := by
  decide

theorem expectedBatch_succ (recs : List Record) (base n : Nat) :
    expectedBatch recs base (n + 1) =
      Record.deepCopy (recs.getD base default) ::
        expectedBatch recs (base + 1) n := by
  unfold expectedBatch
  rw [List.range_succ_eq_map, List.map_cons, List.map_map]
  simp only [Nat.add_zero]
  congr 1
  apply List.map_congr_left
  intro i _
  simp only [Function.comp_apply]
  have hidx : base + (i + 1) = base + 1 + i := by omega
  rw [hidx]

theorem expectedBatch_length (recs : List Record) (base n : Nat) :
    (expectedBatch recs base n).length = n := by
  unfold expectedBatch
  simp

/-- The `read` with a tripped context fails with the cancellation reason. -/
theorem Log.read_cancelled (l : Log) (o : Int) :
    l.read true o = .error .canceled := by
  unfold Log.read
  simp

/-- The `readBatchAux` when every requested offset is readable and cancellation
never trips: the batch is filled completely, in order. -/
theorem Log.readBatchAux_ok (s0 sz : Int) (mr : Nat) (recs : List Record)
    (r : Nat) (l : Log) (h : Log.Sim s0 sz mr recs r l) (cancel : Nat → Bool) :
    ∀ (n : Nat) (off : Int) (i0 : Nat),
      (∀ i, i < n → cancel (i0 + i) = false) →
      s0 + ((r - 1) * sz.toNat : Nat) ≤ off →
      off + n ≤ s0 + recs.length →
      l.readBatchAux cancel off i0 n =
        (expectedBatch recs (off - s0).toNat n, n, none) := by
  intro n
  induction n with
  | zero =>
    intro off i0 _ _ _
    simp [Log.readBatchAux, expectedBatch]
  | succ n ih =>
    intro off i0 hc hlo hhi
    have h0s : 0 ≤ s0 := h.1
    have hc0 : cancel i0 = false := by
      have := hc 0 (by omega)
      simpa using this
    have hread := Log.sim_read s0 sz mr recs r l h off hlo (by push_cast; omega)
    unfold Log.readBatchAux
    rw [hc0, hread]
    dsimp only
    rw [ih (off + 1) (i0 + 1)
      (fun i hi => by
        have hx := hc (i + 1) (by omega)
        have hish : i0 + 1 + i = i0 + (i + 1) := by omega
        rw [hish]
        exact hx)
      (by omega) (by push_cast; push_cast at hhi; omega)]
    dsimp only
    have hbase : (off + 1 - s0).toNat = (off - s0).toNat + 1 := by omega
    rw [hbase, expectedBatch_succ]
    simp

/-- On a simulated log the earliest stored offset is
`s0 + (r-1)*segmentSize` records in (with `r-1` truncated at zero). -/
theorem Log.sim_earliest (s0 sz : Int) (mr : Nat) (recs : List Record)
    (r : Nat) (l : Log) (h : Log.Sim s0 sz mr recs r l) :
    l.earliestStored = s0 + ((r - 1) * sz.toNat : Nat) := by
  have h' := h
  obtain ⟨h0, hsz, hs0, hsz', hmr, hoff, hble, hkub, hblt, hcap, hseal,
    hastart, hadata, hhist⟩ := h'
  unfold Log.earliestStored
  cases hh : l.history
  · simp only [hh] at hhist
    subst hhist
    simp only [Nat.zero_sub, Nat.zero_mul, Nat.cast_zero, add_zero]
    omega
  · simp only [hh] at hhist
    rw [hhist.2]

/-- The `readBatchAux` when the reads run into the tail of the log: the batch
is filled up to the tail and `futureOffset` is reported with the partial
count. -/
theorem Log.readBatchAux_tail (s0 sz : Int) (mr : Nat) (recs : List Record)
    (r : Nat) (l : Log) (h : Log.Sim s0 sz mr recs r l) (cancel : Nat → Bool) :
    ∀ (n : Nat) (off : Int) (i0 : Nat),
      (∀ i, i < n → cancel (i0 + i) = false) →
      s0 + ((r - 1) * sz.toNat : Nat) ≤ off →
      off ≤ s0 + recs.length →
      s0 + recs.length < off + n →
      l.readBatchAux cancel off i0 n =
        (expectedBatch recs (off - s0).toNat (s0 + recs.length - off).toNat,
         (s0 + recs.length - off).toNat, some .futureOffset) := by
  intro n
  induction n with
  | zero =>
    intro off i0 _ _ hle hlt
    exact absurd hlt (by push_cast; omega)
  | succ n ih =>
    intro off i0 hc hlo hle hlt
    have h0s : 0 ≤ s0 := h.1
    have hoffeq : l.offset = s0 + recs.length := h.2.2.2.2.2.1
    have hc0 : cancel i0 = false := by
      have := hc 0 (by omega)
      simpa using this
    by_cases hoff : off = s0 + recs.length
    · have hread : l.read (cancel i0) off = .error .futureOffset := by
        rw [hc0]
        exact Log.read_future l off (by omega)
      unfold Log.readBatchAux
      rw [hread]
      have ht : (s0 + recs.length - off).toNat = 0 := by omega
      rw [ht]
      simp [expectedBatch]
    · have hofflt : off < s0 + recs.length := by omega
      have hread := Log.sim_read s0 sz mr recs r l h off hlo hofflt
      unfold Log.readBatchAux
      rw [hc0, hread]
      dsimp only
      rw [ih (off + 1) (i0 + 1)
        (fun i hi => by
          have hx := hc (i + 1) (by omega)
          have hish : i0 + 1 + i = i0 + (i + 1) := by omega
          rw [hish]
          exact hx)
        (by omega) (by omega) (by push_cast; push_cast at hlt; omega)]
      dsimp only
      have ht : (s0 + recs.length - off).toNat =
          (s0 + recs.length - (off + 1)).toNat + 1 := by omega
      have hbase : (off + 1 - s0).toNat = (off - s0).toNat + 1 := by omega
      rw [ht, hbase, expectedBatch_succ]
      simp

/-- The `readBatchAux` when cancellation trips at loop index `j` after `j`
successful reads: the partial batch and the cancellation are returned. -/
theorem Log.readBatchAux_cancelled (s0 sz : Int) (mr : Nat)
    (recs : List Record) (r : Nat) (l : Log)
    (h : Log.Sim s0 sz mr recs r l) (cancel : Nat → Bool) :
    ∀ (j n : Nat) (off : Int) (i0 : Nat), j < n →
      (∀ i, i < j → cancel (i0 + i) = false) →
      cancel (i0 + j) = true →
      s0 + ((r - 1) * sz.toNat : Nat) ≤ off →
      off + j ≤ s0 + recs.length →
      l.readBatchAux cancel off i0 n =
        (expectedBatch recs (off - s0).toNat j, j, some .canceled) := by
  intro j
  induction j with
  | zero =>
    intro n off i0 hjn hc hcj hlo hhi
    cases n with
    | zero => omega
    | succ n =>
      have hcj0 : cancel i0 = true := by simpa using hcj
      unfold Log.readBatchAux
      rw [hcj0, Log.read_cancelled]
      simp [expectedBatch]
  | succ j ih =>
    intro n off i0 hjn hc hcj hlo hhi
    cases n with
    | zero => omega
    | succ n =>
      have h0s : 0 ≤ s0 := h.1
      have hc0 : cancel i0 = false := by
        have := hc 0 (by omega)
        simpa using this
      have hofflt : off < s0 + recs.length := by push_cast at hhi; omega
      have hread := Log.sim_read s0 sz mr recs r l h off hlo hofflt
      unfold Log.readBatchAux
      rw [hc0, hread]
      dsimp only
      rw [ih n (off + 1) (i0 + 1) (by omega)
        (fun i hi => by
          have hx := hc (i + 1) (by omega)
          have hish : i0 + 1 + i = i0 + (i + 1) := by omega
          rw [hish]
          exact hx)
        (by
          have hish : i0 + 1 + j = i0 + (j + 1) := by omega
          rw [hish]
          exact hcj)
        (by omega) (by push_cast; push_cast at hhi; omega)]
      dsimp only
      have hbase : (off + 1 - s0).toNat = (off - s0).toNat + 1 := by omega
      rw [hbase, expectedBatch_succ]
      simp

/-- Claim C6: `ReadBatch` fills the batch from index 0 with the consecutive
records at `offset, offset+1, …`, never reordering. With `E` the earliest
retained offset and `T` the next write offset of a simulated log:
(1) if cancellation never trips and all `n` offsets are readable, it
returns `(n, nil)` with the batch filled completely;
(2) if cancellation never trips and the batch crosses the tail `T`, it
fills `T - offset` records and returns `(T - offset, ErrFutureOffset)`;
(3) if cancellation trips at loop index `j` after `j` successful reads, it
returns `(j, cancellation)` with the first `j` records filled;
(4) if the first read is out of range (offset below `E` but not in the
future), it returns `(0, ErrOutOfRange)`. -/
theorem claim_C6 (s0 sz : Int) (mr : Nat) (recs : List Record) (r : Nat)
    (l : Log) (h : Log.Sim s0 sz mr recs r l) (cancel : Nat → Bool)
    (off : Int) (n : Nat) :
    ((∀ i, i < n → cancel i = false) →
      s0 + ((r - 1) * sz.toNat : Nat) ≤ off →
      off + n ≤ s0 + recs.length →
      l.readBatch cancel off n =
        (expectedBatch recs (off - s0).toNat n, n, none)) ∧
    ((∀ i, i < n → cancel i = false) →
      s0 + ((r - 1) * sz.toNat : Nat) ≤ off →
      off ≤ s0 + recs.length →
      s0 + recs.length < off + n →
      l.readBatch cancel off n =
        (expectedBatch recs (off - s0).toNat (s0 + recs.length - off).toNat,
         (s0 + recs.length - off).toNat, some .futureOffset)) ∧
    (∀ j, j < n →
      (∀ i, i < j → cancel i = false) →
      cancel j = true →
      s0 + ((r - 1) * sz.toNat : Nat) ≤ off →
      off + j ≤ s0 + recs.length →
      l.readBatch cancel off n =
        (expectedBatch recs (off - s0).toNat j, j, some .canceled)) ∧
    (0 < n → cancel 0 = false →
      off < s0 + ((r - 1) * sz.toNat : Nat) →
      off < s0 + recs.length →
      l.readBatch cancel off n = ([], 0, some .outOfRange)) := by
  refine ⟨?_, ?_, ?_, ?_⟩
  · intro hc hlo hhi
    unfold Log.readBatch
    exact Log.readBatchAux_ok s0 sz mr recs r l h cancel n off 0
      (fun i hi => by simpa using hc i hi) hlo hhi
  · intro hc hlo hle hlt
    unfold Log.readBatch
    exact Log.readBatchAux_tail s0 sz mr recs r l h cancel n off 0
      (fun i hi => by simpa using hc i hi) hlo hle hlt
  · intro j hjn hc hcj hlo hhi
    unfold Log.readBatch
    exact Log.readBatchAux_cancelled s0 sz mr recs r l h cancel j n off 0 hjn
      (fun i hi => by simpa using hc i hi) (by simpa using hcj) hlo hhi
  · intro hn hc0 hlow hfut
    have hWf := Log.sim_wf s0 sz mr recs r l h
    have hoffeq : l.offset = s0 + recs.length := h.2.2.2.2.2.1
    have hes := Log.sim_earliest s0 sz mr recs r l h
    cases n with
    | zero => omega
    | succ n =>
      have hread : l.read (cancel 0) off = .error .outOfRange := by
        rw [hc0]
        exact Log.read_outOfRange l hWf off (by omega) (by omega)
      unfold Log.readBatch Log.readBatchAux
      rw [hread]

/-- Claim C6, witness: startOffset 0, segmentSize 30, 30 records written;
a batch of 10 starting at offset 20 is filled completely. -/
theorem claim_C6_witness :
    Log.Sim 0 30 1048576 recs30 0 log30 ∧
    log30.readBatch (fun _ => false) 20 10 =
      (expectedBatch recs30 ((20 : Int) - 0).toNat 10, 10, none) := by
  have hsim : Log.Sim 0 30 1048576 recs30 0 log30 := by decide
  refine ⟨hsim, ?_⟩
  exact (claim_C6 0 30 1048576 recs30 0 log30 hsim (fun _ => false) 20 10).1
    (fun i _ => rfl) (by decide) (by decide)

theorem listGetD_append_length (xs : List α) (x : α) (d : α) :
    (xs ++ [x]).getD xs.length d = x := by
  induction xs with
  | nil => rfl
  | cons y ys ih => simpa using ih

theorem listGetD_append_left (xs ys : List α) (i : Nat) (d : α)
    (h : i < xs.length) : (xs ++ ys).getD i d = xs.getD i d := by
  induction xs generalizing i with
  | nil => simp at h
  | cons y zs ih =>
    cases i with
    | zero => rfl
    | succ i =>
      simp only [List.cons_append, List.getD_cons_succ]
      exact ih i (by simpa using h)

theorem listGetD_set_ne (xs : List α) (i j : Nat) (a d : α) (h : i ≠ j) :
    (xs.set i a).getD j d = xs.getD j d := by
  induction xs generalizing i j with
  | nil => rfl
  | cons y zs ih =>
    cases i with
    | zero =>
      cases j with
      | zero => omega
      | succ j => rfl
    | succ i =>
      cases j with
      | zero => rfl
      | succ j =>
        simp only [List.set_cons_succ, List.getD_cons_succ]
        exact ih i j (by omega)

/-- The `writeP` on a well-formed log with a valid caller slice: the caller's
bytes are copied into a fresh cell (index `st.length`) and the record
stored by the usual step; the caller's own cell is untouched. -/
theorem LogP.writeP_char (l : LogP) (st : Store) (hWf : LogG.Wf l)
    (now : Nat) (p : Option Nat)
    (hlen : (Store.getBytes st p).length ≠ 0)
    (hmax : ¬ (Store.getBytes st p).length > l.maxRecordSize) :
    l.writeP st false now p =
      (st ++ [Store.getBytes st p],
       .ok (LogG.stepSpec l ⟨⟨l.offset, now⟩, some st.length⟩) l.offset) := by
  obtain ⟨h0, hsz, hcap, hseal, hlenW, hoff, hstart, hhist⟩ := hWf
  have hcopy : Store.copy st p =
      (st ++ [Store.getBytes st p], some st.length) := by
    unfold Store.copy
    rw [if_neg (by
      intro hcon
      rw [hcon] at hlen
      exact hlen rfl)]
  unfold LogP.writeP
  rw [if_neg (by simp), if_neg hmax, if_neg hlen]
  simp only [hcopy]
  by_cases hfull : l.active.data.length = l.active.cap
  · have hw : l.active.write false
        (⟨⟨l.offset, now⟩, some st.length⟩ : RecordP) = .error .errFull := by
      unfold SegmentG.write
      simp [hseal, hfull]
    have hne : ¬ l.segmentSize ≤ 0 := by omega
    have hnn : ¬ l.offset < 0 := by omega
    have hext : l.extend = some
        { l with history := some l.active.seal,
                 active := ⟨l.offset, false, l.segmentSize.toNat, []⟩ } := by
      unfold LogG.extend newSegmentG
      simp [hne, hnn]
    have hw2 : SegmentG.write (δ := Option Nat)
        ⟨l.offset, false, l.segmentSize.toNat, []⟩ false
        ⟨⟨l.offset, now⟩, some st.length⟩ =
        .ok ⟨l.offset, false, l.segmentSize.toNat,
          [⟨⟨l.offset, now⟩, some st.length⟩]⟩ := by
      unfold SegmentG.write
      have h2 : (0 : Nat) ≠ l.segmentSize.toNat := by omega
      simp [h2]
    simp only [hw]
    unfold LogG.writeLoop
    simp only [reduceCtorEq, if_false, hext, hw2, LogG.writeLoop_none,
      LogG.stepSpec, hfull, if_true]
  · have hw : l.active.write false
        (⟨⟨l.offset, now⟩, some st.length⟩ : RecordP) =
        .ok { l.active with
          data := l.active.data ++ [⟨⟨l.offset, now⟩, some st.length⟩] } := by
      unfold SegmentG.write
      simp [hseal, hfull]
    simp only [hw, LogG.writeLoop_none, LogG.stepSpec, hfull, if_false]

/-- After a step storing record `rec`, looking up the written offset finds
the segment holding `rec`, and the segment-level read returns `rec`
itself. -/
theorem LogG.stepSpec_read_back [Inhabited (RecordG δ)] (l : LogG δ)
    (hWf : LogG.Wf l) (rec : RecordG δ) :
    ∃ s, (l.stepSpec rec).getSegment l.offset = .ok s ∧
      s.read false l.offset = .ok rec := by
  obtain ⟨h0, hsz, hcap, hseal, hlen, hoff, hstart, hhist⟩ := hWf
  unfold LogG.stepSpec
  by_cases hfull : l.active.data.length = l.active.cap
  · simp only [hfull, if_true]
    refine ⟨⟨l.offset, false, l.segmentSize.toNat, [rec]⟩, ?_, ?_⟩
    · have hcur : SegmentG.currentOffset
          (⟨l.offset, false, l.segmentSize.toNat, [rec]⟩ : SegmentG δ) =
          l.offset := by
        unfold SegmentG.currentOffset
        simp
      unfold LogG.getSegment
      dsimp only
      rw [hcur, if_pos (le_refl l.offset), if_pos (le_refl l.offset)]
    · unfold SegmentG.read
      rw [if_neg (by simp)]
      dsimp only
      rw [if_neg (by simp)]
      simp
  · simp only [hfull, if_false]
    have hlen1 : (l.active.data ++ [rec]).length = l.active.data.length + 1 :=
      by simp
    refine ⟨{ l.active with data := l.active.data ++ [rec] }, ?_, ?_⟩
    · have hcur : SegmentG.currentOffset
          { l.active with data := l.active.data ++ [rec] } = l.offset := by
        unfold SegmentG.currentOffset
        dsimp only
        rw [hlen1, if_neg (by omega)]
        push_cast
        omega
      unfold LogG.getSegment
      dsimp only
      rw [hcur, if_pos (by omega), if_pos (le_refl l.offset)]
    · unfold SegmentG.read
      rw [if_neg (by simp)]
      dsimp only
      rw [hlen1]
      rw [if_neg (by push_cast; omega)]
      have hidx : (l.offset - l.active.start).toNat = l.active.data.length :=
        by omega
      rw [hidx, listGetD_append_length]

/-- Claim C7: a successful `Write` of the caller's slice `p` stores a fresh
copy of its bytes, and every `read` of the assigned offset returns a fresh
deep copy. Consequently (a) reading the offset back yields exactly the bytes
passed to `Write`; (b) mutating the caller's input slice after the write
does not change what later reads return; and (c) mutating the slice a read
returned does not change what later reads of the same offset return. -/
theorem claim_C7 (l : LogP) (st : Store) (hWf : LogG.Wf l) (now : Nat)
    (hnow : now ≠ 0) (p : Nat) (hp : p < st.length)
    (hlen : (st.getD p []).length ≠ 0)
    (hmax : ¬ (st.getD p []).length > l.maxRecordSize) :
    ∃ l1,
      l.writeP st false now (some p) =
        (st ++ [st.getD p []], .ok l1 l.offset) ∧
      LogP.readBytes l1 (st ++ [st.getD p []]) l.offset =
        some (st.getD p []) ∧
      (∀ bs, LogP.readBytes l1 ((st ++ [st.getD p []]).set p bs) l.offset =
        some (st.getD p [])) ∧
      (∀ st2 (rec2 : RecordP),
        LogP.readP l1 (st ++ [st.getD p []]) false l.offset =
          (st2, .ok rec2) →
        ∀ i, rec2.data = some i → ∀ bs,
          LogP.readBytes l1 (st2.set i bs) l.offset =
            some (st.getD p [])) := by
  have hWf' := hWf
  obtain ⟨h0, hsz, hcap, hseal, hlenW, hoff, hstart, hhist⟩ := hWf'
  have hgb : Store.getBytes st (some p) = st.getD p [] := rfl
  have hwc := LogP.writeP_char l st hWf now (some p)
    (by rw [hgb]; exact hlen) (by rw [hgb]; exact hmax)
  rw [hgb] at hwc
  set rec : RecordP := ⟨⟨l.offset, now⟩, some st.length⟩ with hrec
  set l1 : LogP := LogG.stepSpec l rec with hl1
  obtain ⟨s, hgs, hsread⟩ := LogG.stepSpec_read_back l hWf rec
  have hoffs : l1.offset = l.offset + 1 := LogG.stepSpec_offset l rec
  have hstart1 : l1.startOffset = l.startOffset := LogG.stepSpec_startOffset l rec
  have hgen : ∀ stX : Store, stX.getD st.length [] = st.getD p [] →
      l1.readP stX false l.offset =
        (stX ++ [st.getD p []], .ok ⟨⟨l.offset, now⟩, some stX.length⟩) := by
    intro stX hcell
    unfold LogP.readP
    rw [if_neg (by simp), if_neg (by rw [hoffs]; omega),
      if_neg (by rw [hstart1]; omega), hgs]
    dsimp only
    rw [hsread]
    dsimp only
    unfold RecordP.deepCopyP
    rw [if_neg (by
      intro hcon
      exact hnow hcon.2)]
    have hcopy : Store.copy stX rec.data =
        (stX ++ [st.getD p []], some stX.length) := by
      unfold Store.copy
      have hgb2 : Store.getBytes stX rec.data = st.getD p [] := by
        rw [hrec]
        exact hcell
      rw [hgb2, if_neg (by
        intro hcon
        rw [hcon] at hlen
        exact hlen rfl)]
    simp only [hcopy]
  have hreadBytes : ∀ stX : Store, stX.getD st.length [] = st.getD p [] →
      l1.readBytes stX l.offset = some (st.getD p []) := by
    intro stX hcell
    unfold LogP.readBytes
    rw [hgen stX hcell]
    dsimp only [Store.getBytes]
    rw [listGetD_append_length]
  refine ⟨l1, hwc, ?_, ?_, ?_⟩
  · exact hreadBytes _ (listGetD_append_length st (st.getD p []) [])
  · intro bs
    refine hreadBytes _ ?_
    rw [listGetD_set_ne _ _ _ _ _ (by omega),
      listGetD_append_length]
  · intro st2 rec2 hread2 i hdata bs
    rw [hgen (st ++ [st.getD p []])
      (listGetD_append_length st (st.getD p []) [])] at hread2
    have hst2 : st2 = (st ++ [st.getD p []]) ++ [st.getD p []] := by
      have := congrArg Prod.fst hread2
      simpa using this.symm
    have hi : i = (st ++ [st.getD p []]).length := by
      have h2 := congrArg Prod.snd hread2
      simp only [Prod.snd] at h2
      have h3 : rec2 = ⟨⟨l.offset, now⟩, some (st ++ [st.getD p []]).length⟩ := by
        cases h2
        rfl
      rw [h3] at hdata
      cases hdata
      rfl
    refine hreadBytes _ ?_
    subst hst2 hi
    rw [listGetD_set_ne _ _ _ _ _ (by simp),
      listGetD_append_left _ _ _ _ (by simp),
      listGetD_append_length]

/-- Claim C7, witness: a fresh pointer-store log, one caller slice holding
`[1, 2, 3]`; writing it, mutating either the caller's slice or the slice a
read returned, and reading again. -/
theorem claim_C7_witness :
    LogG.Wf logP0 ∧
    ∃ l1,
      logP0.writeP [[1, 2, 3]] false 7 (some 0) =
        ([[1, 2, 3], [1, 2, 3]], .ok l1 0) ∧
      LogP.readBytes l1 [[1, 2, 3], [1, 2, 3]] 0 = some [1, 2, 3] ∧
      (∀ bs, LogP.readBytes l1 ([[1, 2, 3], [1, 2, 3]].set 0 bs) 0 =
        some [1, 2, 3]) ∧
      (∀ st2 (rec2 : RecordP),
        LogP.readP l1 [[1, 2, 3], [1, 2, 3]] false 0 = (st2, .ok rec2) →
        ∀ i, rec2.data = some i → ∀ bs,
          LogP.readBytes l1 (st2.set i bs) 0 = some [1, 2, 3]) :=
  ⟨by decide, claim_C7 logP0 [[1, 2, 3]] (by decide) 7 (by decide) 0
    (by decide) (by decide) (by decide)⟩

/-- Sanity: the model reproduces the repository's own test expectations
(`memlog_internal_test.go`: writes-succeed, purged-read and offsetRange
test cases). -/
theorem model_agrees_with_repo_tests :
    (mkTestLog 0 10 20).offsetRange = (0, 19) ∧
    (mkTestLog 10 10 30).offsetRange = (20, 39) ∧
    (mkTestLog 0 10 0).offsetRange = (-1, -1) ∧
    (mkTestLog 10 2 5).read false 10 = .error .outOfRange ∧
    (mkTestLog 0 10 20).read false 20 = .error .futureOffset ∧
    (Log.writeMany ((LogG.new (List Nat) 10 10 1048576).getD default)
      (dsN 3)).2 = [10, 11, 12] := by
  exact ⟨by decide, by decide, by decide, by decide, by decide, by decide⟩
